import Mathlib

/-!
String-Search: a shallow embedding of `StringSearch.c`.

The C file defines two substring matchers over NUL-terminated strings:

* `string_search`  builds the table `repeat_states` over the search string and
  then walks the text with one `state` variable;
* `string_search_` walks the text with two counters, `match_index` and
  `prefix_run`, and no table.

Modelling conventions:

* A C string is the list of its characters before the terminating NUL.  The
  character type `α` is arbitrary with decidable equality; it stands for the
  non-NUL values of `char`.  A read `s[k]` is `s[k]?`: `some c` inside the
  string and `none` at the terminator.
* `unsigned int` is a natural number below `2^32`; every arithmetic operation of
  the source is followed by an explicit reduction modulo `2^32` (`u32`, `usub`).
  `(unsigned)-1` is `NOT_FOUND = 4294967295`; it is both the start state of
  `string_search` and the value returned when nothing is found.
* A loop `for (i = 0; text[i]; i++)` is a recursion over the unread part of the
  text that carries the counter `i`.  This agrees with the C loop as long as
  the counter does not wrap, i.e. for texts of length below `2^32`; the general
  theorems carry that bound as a hypothesis.
-/

namespace StringSearch

/-- The value of `(unsigned)-1`: start state of `string_search` and the result
returned by both matchers when the text is exhausted. -/
def NOT_FOUND : Nat := 4294967295

/-- Reduction of an arithmetic result to `unsigned int`. -/
def u32 (n : Nat) : Nat := n % 4294967296

/-- Subtraction `a - b` on `unsigned int`. -/
def usub (a b : Nat) : Nat := (a % 4294967296 + 4294967296 - b % 4294967296) % 4294967296

section Code

variable {α : Type} [DecidableEq α]

/-- Body of the table loop (source lines 37-45): the entry for a position
holding `c`, given the entry `prev` of the position before it. -/
def repeat_step (string : List α) (prev : Nat) (c : α) : Nat :=
  if string[prev]? = some c then u32 (prev + 1)
  else if string[0]? = some c then 1
  else 0

/-- The table loop `for (i = 1; string[i]; i++)` over the characters not yet
visited; `prev` is `repeat_states[i-1]`. -/
def repeat_loop (string : List α) : List α → Nat → List Nat
  | [], _ => []
  | c :: rest, prev =>
    repeat_step string prev c :: repeat_loop string rest (repeat_step string prev c)

/-- The table `repeat_states` (source lines 34-46): entry `0` is `0`, the
others come from the loop. -/
def repeat_states (string : List α) : List Nat :=
  0 :: repeat_loop string string.tail 0

/-- The search loop of `string_search` (source lines 50-63) over the unread
text, with the counter `i` and the variable `state`. -/
def search_loop (string : List α) (rs : List Nat) : List α → Nat → Nat → Nat
  | [], _, _ => NOT_FOUND
  | c :: rest, i, state =>
    if string[u32 (state + 1)]? = some c then
      if string[u32 (u32 (state + 1) + 1)]? = none then usub i (u32 (state + 1))
      else search_loop string rs rest (u32 (i + 1)) (u32 (state + 1))
    else if state ≠ NOT_FOUND ∧ string[rs.getD state 0]? = some c then
      search_loop string rs rest (u32 (i + 1)) (rs.getD state 0)
    else
      search_loop string rs rest (u32 (i + 1)) NOT_FOUND

/-- The function `string_search` (source lines 31-65). -/
def string_search (string text : List α) : Nat :=
  search_loop string (repeat_states string) text 0 NOT_FOUND

/-- The block "Update prefix run" of `string_search_` (source lines 81-91). -/
def update_prefix_run (string : List α) (c : α) (match_index prefix_run : Nat) : Nat :=
  if 1 < match_index then
    if string[prefix_run]? = some c then u32 (prefix_run + 1)
    else if string[0]? = some c then 1
    else 0
  else prefix_run

/-- The block "Update match index" of `string_search_` (source lines 94-103);
the result is the new pair `(match_index, prefix_run)`. -/
def update_match_index (string : List α) (c : α) (match_index prefix_run : Nat) : Nat × Nat :=
  if string[match_index]? = some c then (u32 (match_index + 1), prefix_run)
  else if string[0]? = some c then (1, prefix_run)
  else (prefix_run, 0)

/-- One pass through the loop body of `string_search_` up to the match check:
the new pair `(match_index, prefix_run)` after reading `c`. -/
def step_ (string : List α) (c : α) (match_index prefix_run : Nat) : Nat × Nat :=
  update_match_index string c match_index (update_prefix_run string c match_index prefix_run)

/-- The loop of `string_search_` (source lines 78-109) over the unread text,
with the counter `i` and the variables `match_index` and `prefix_run`. -/
def search_loop_ (string : List α) : List α → Nat → Nat → Nat → Nat
  | [], _, _, _ => NOT_FOUND
  | c :: rest, i, match_index, prefix_run =>
    if string[(step_ string c match_index prefix_run).1]? = none then
      u32 (usub i (step_ string c match_index prefix_run).1 + 1)
    else
      search_loop_ string rest (u32 (i + 1))
        (step_ string c match_index prefix_run).1 (step_ string c match_index prefix_run).2

/-- The function `string_search_` (source lines 74-111). -/
def string_search_ (string text : List α) : Nat :=
  search_loop_ string text 0 0 0

/-! Instrumented copies of the loops: the values the variables take and the
array cells the code touches. -/

/-- One access to an array of `string_search` or `string_search_`: a read of
`string[k]`, or a read or write of `repeat_states[k]`.  The reads of `text[i]`
are not listed: the loops read the text one cell after the other and stop at
its terminator. -/
inductive Access where
  | string_at (k : Nat)
  | repeat_states_at (k : Nat)
  deriving DecidableEq, Repr

/-- An access is in range for a search string of length `m` when it touches
`string[k]` with `k ≤ m` (the terminator is cell `m`) or `repeat_states[k]`
with `k < m` (the table has `m` cells). -/
def Access.in_range (m : Nat) : Access → Bool
  | Access.string_at k => decide (k ≤ m)
  | Access.repeat_states_at k => decide (k < m)

/-- The accesses of the table loop (source lines 36-46), in program order, with
the counter `i` and `prev = repeat_states[i-1]`; the last one is the read of
the terminator that ends the loop. -/
def repeat_accesses (string : List α) : List α → Nat → Nat → List Access
  | [], i, _ => [Access.string_at i]
  | c :: rest, i, prev =>
    [Access.string_at i, Access.string_at i, Access.repeat_states_at (usub i 1),
      Access.string_at prev] ++
    (if string[prev]? = some c then
      [Access.repeat_states_at (usub i 1), Access.repeat_states_at i]
    else
      [Access.string_at i, Access.string_at 0, Access.repeat_states_at i]) ++
    repeat_accesses string rest (u32 (i + 1)) (repeat_step string prev c)

/-- The values `(i, state)` at the end of each pass through the loop body of
`string_search`, in order. -/
def search_trace (string : List α) (rs : List Nat) : List α → Nat → Nat → List (Nat × Nat)
  | [], _, _ => []
  | c :: rest, i, state =>
    if string[u32 (state + 1)]? = some c then
      if string[u32 (u32 (state + 1) + 1)]? = none then [(i, u32 (state + 1))]
      else (i, u32 (state + 1)) :: search_trace string rs rest (u32 (i + 1)) (u32 (state + 1))
    else if state ≠ NOT_FOUND ∧ string[rs.getD state 0]? = some c then
      (i, rs.getD state 0) :: search_trace string rs rest (u32 (i + 1)) (rs.getD state 0)
    else
      (i, NOT_FOUND) :: search_trace string rs rest (u32 (i + 1)) NOT_FOUND

/-- The accesses of the search loop of `string_search` (source lines 50-63), in
program order. -/
def search_accesses (string : List α) (rs : List Nat) : List α → Nat → List Access
  | [], _ => []
  | c :: rest, state =>
    if string[u32 (state + 1)]? = some c then
      if string[u32 (u32 (state + 1) + 1)]? = none then
        [Access.string_at (u32 (state + 1)), Access.string_at (u32 (u32 (state + 1) + 1))]
      else
        Access.string_at (u32 (state + 1)) :: Access.string_at (u32 (u32 (state + 1) + 1)) ::
          search_accesses string rs rest (u32 (state + 1))
    else if state ≠ NOT_FOUND then
      if string[rs.getD state 0]? = some c then
        Access.string_at (u32 (state + 1)) :: Access.repeat_states_at state ::
          Access.string_at (rs.getD state 0) :: Access.repeat_states_at state ::
          search_accesses string rs rest (rs.getD state 0)
      else
        Access.string_at (u32 (state + 1)) :: Access.repeat_states_at state ::
          Access.string_at (rs.getD state 0) :: search_accesses string rs rest NOT_FOUND
    else
      Access.string_at (u32 (state + 1)) :: search_accesses string rs rest NOT_FOUND

/-- All array accesses of `string_search`: the table is filled, then the text
is searched. -/
def string_search_accesses (string text : List α) : List Access :=
  Access.repeat_states_at 0 :: repeat_accesses string string.tail 1 0 ++
    search_accesses string (repeat_states string) text NOT_FOUND

/-- The values `(i, match_index, prefix_run)` at the end of each pass through
the loop body of `string_search_`, in order. -/
def search_trace_ (string : List α) : List α → Nat → Nat → Nat → List (Nat × Nat × Nat)
  | [], _, _, _ => []
  | c :: rest, i, match_index, prefix_run =>
    if string[(step_ string c match_index prefix_run).1]? = none then
      [(i, (step_ string c match_index prefix_run).1, (step_ string c match_index prefix_run).2)]
    else
      (i, (step_ string c match_index prefix_run).1, (step_ string c match_index prefix_run).2) ::
        search_trace_ string rest (u32 (i + 1))
          (step_ string c match_index prefix_run).1 (step_ string c match_index prefix_run).2

/-- The reads of `string` in one pass through the loop body of `string_search_`
(source lines 81-106), in program order. -/
def step_accesses_ (string : List α) (c : α) (match_index prefix_run : Nat) : List Access :=
  (if 1 < match_index then
    (if string[prefix_run]? = some c then [Access.string_at prefix_run]
     else [Access.string_at prefix_run, Access.string_at 0])
   else []) ++
  (if string[match_index]? = some c then [Access.string_at match_index]
   else [Access.string_at match_index, Access.string_at 0]) ++
  [Access.string_at (step_ string c match_index prefix_run).1]

/-- The accesses of the loop of `string_search_`, in program order. -/
def search_accesses_ (string : List α) : List α → Nat → Nat → List Access
  | [], _, _ => []
  | c :: rest, match_index, prefix_run =>
    if string[(step_ string c match_index prefix_run).1]? = none then
      step_accesses_ string c match_index prefix_run
    else
      step_accesses_ string c match_index prefix_run ++
        search_accesses_ string rest
          (step_ string c match_index prefix_run).1 (step_ string c match_index prefix_run).2

/-- All array accesses of `string_search_`. -/
def string_search__accesses (string text : List α) : List Access :=
  search_accesses_ string text 0 0

/-- The search string occurs in the text at index `j`: the `m` characters of the
text from `j` on exist and are the search string. -/
def occurs_at (pattern text : List α) (j : Nat) : Prop :=
  j + pattern.length ≤ text.length ∧ (text.drop j).take pattern.length = pattern

instance (pattern text : List α) (j : Nat) : Decidable (occurs_at pattern text j) := by
  unfold occurs_at; infer_instance

/-- The notion the specification compares the table with ("the length of the
longest proper prefix of `pattern[0..i]` that is also a suffix of
`pattern[0..i]`"), written from its words and not from the code: the largest
`b ≤ bound` such that the first `b` characters of `s` are its last `b`
characters, found by trying `bound`, `bound - 1`, ... down to `0`. -/
def longest_border_upto (s : List α) : Nat → Nat
  | 0 => 0
  | b + 1 =>
    if s.take (b + 1) = s.drop (s.length - (b + 1)) then b + 1
    else longest_border_upto s b

/-- The classical failure value of position `i`: the length of the longest
proper run that both starts and ends `pattern[0..i]`. -/
def classical_failure (pattern : List α) (i : Nat) : Nat :=
  longest_border_upto (pattern.take (i + 1)) i

end Code

/-- The search string of the call in `main`. -/
def main_string : List Char := "aaaaabaaaabaaabaabab".toList

/-- The text of the call in `main`. -/
def main_text : List Char := "aaaaaaaabaaaabaaabaabab".toList

/-! ## Arithmetic on `unsigned int` -/

theorem u32_of_lt {n : Nat} (h : n < 4294967296) : u32 n = n := by
  unfold u32; omega

theorem u32_not_found_succ : u32 (NOT_FOUND + 1) = 0 := by
  decide

theorem usub_of_le {a b : Nat} (hb : b ≤ a) (ha : a < 4294967296) : usub a b = a - b := by
  unfold usub; omega

/-! ## Suffixes of the text read so far -/

/-- The character right after the part `done` of a list. -/
theorem getElem?_after {α : Type} (done todo : List α) (c : α) :
    (done ++ c :: todo)[done.length]? = some c := by
  rw [List.getElem?_append_right (Nat.le_refl _)]
  simp

/-- A matched run of length `k` grows by one when the next character read is
character `k` of the search string. -/
theorem take_succ_suffix {α : Type} {string pre : List α} {k : Nat} {c : α}
    (h : string.take k <:+ pre) (hc : string[k]? = some c) :
    string.take (k + 1) <:+ pre ++ [c] := by
  obtain ⟨t, ht⟩ := h
  refine ⟨t, ?_⟩
  rw [List.take_succ, hc, ← ht]
  simp

/-- A character equal to `string[0]` is by itself a run of length one. -/
theorem take_one_suffix {α : Type} {string pre : List α} {c : α} (hc : string[0]? = some c) :
    string.take 1 <:+ pre ++ [c] := by
  have h0 : string.take 0 <:+ pre := by simp
  have h : string.take (0 + 1) <:+ pre ++ [c] := take_succ_suffix h0 hc
  simpa using h

section Lemmas

variable {α : Type} [DecidableEq α]

/-! ## The table `repeat_states` -/

/-- One table entry: if `prev` is the length of a run that ends the visited
part `done`, the entry for the next character is at most `done.length` and is
the length of a run that ends `done ++ [c]`. -/
theorem repeat_step_border {string done : List α} {c : α} {prev : Nat}
    (hm : string.length < 4294967296) (hdone : done.length < string.length)
    (hne : done ≠ []) (hprev : prev < done.length) (hsuf : string.take prev <:+ done) :
    repeat_step string prev c ≤ done.length ∧
      string.take (repeat_step string prev c) <:+ done ++ [c] := by
  have hpos : 1 ≤ done.length := by
    cases done with
    | nil => exact absurd rfl hne
    | cons a tl => simp
  unfold repeat_step
  by_cases h1 : string[prev]? = some c
  · rw [if_pos h1, u32_of_lt (by omega)]
    exact ⟨by omega, take_succ_suffix hsuf h1⟩
  · rw [if_neg h1]
    by_cases h2 : string[0]? = some c
    · rw [if_pos h2]
      exact ⟨hpos, take_one_suffix h2⟩
    · rw [if_neg h2]
      exact ⟨Nat.zero_le _, by simp⟩

/-- Every entry produced by the table loop is the length of a proper run: the
entry for position `done.length + j` is at most that position and the search
string's first that many characters end its first `done.length + j + 1`. -/
theorem repeat_loop_border (string : List α) (hm : string.length < 4294967296) :
    ∀ (rest done : List α) (prev : Nat), string = done ++ rest → done ≠ [] →
      prev < done.length → string.take prev <:+ done → ∀ j : Nat,
      (repeat_loop string rest prev).getD j 0 ≤ done.length + j ∧
        string.take ((repeat_loop string rest prev).getD j 0)
          <:+ string.take (done.length + j + 1) := by
  intro rest
  induction rest with
  | nil =>
    intro done prev _ _ _ _ j
    simp [repeat_loop]
  | cons c rest ih =>
    intro done prev hs hne hprev hsuf j
    have hlen : done.length < string.length := by
      rw [hs]; simp
    obtain ⟨hv, hvs⟩ := repeat_step_border (c := c) hm hlen hne hprev hsuf
    have htake : string.take (done.length + 1) = done ++ [c] := by
      rw [hs, List.take_append]; simp
    cases j with
    | zero =>
      simp only [repeat_loop, List.getD_cons_zero, Nat.add_zero]
      exact ⟨hv, by rw [htake]; exact hvs⟩
    | succ j =>
      simp only [repeat_loop, List.getD_cons_succ]
      have h := ih (done ++ [c]) (repeat_step string prev c) (by rw [hs]; simp) (by simp)
        (by simp; omega) hvs j
      simp only [List.length_append, List.length_singleton] at h
      have e1 : done.length + 1 + j = done.length + (j + 1) := by omega
      rw [e1] at h
      exact h

/-- Every entry of `repeat_states` is the length of a proper run: entry `s` is
at most `s`, and the search string's first `repeat_states[s]` characters end
its first `s + 1` characters. -/
theorem repeat_states_border (string : List α) (hm : string.length < 4294967296) (s : Nat) :
    (repeat_states string).getD s 0 ≤ s ∧
      string.take ((repeat_states string).getD s 0) <:+ string.take (s + 1) := by
  unfold repeat_states
  cases s with
  | zero => simp
  | succ j =>
    rw [List.getD_cons_succ]
    cases string with
    | nil => simp [repeat_loop]
    | cons a tl =>
      have h := repeat_loop_border (a :: tl) hm tl [a] 0 rfl (by simp) (by simp) (by simp) j
      simp only [List.length_singleton, List.tail_cons] at h ⊢
      have e1 : 1 + j = j + 1 := by omega
      rw [e1] at h
      exact h

/-! ## The search loop of `string_search` -/

/-- A run of the whole search string that ends the text read so far is an
occurrence at the position where the run began. -/
theorem occurrence_of_suffix {α : Type} {string pre : List α} (rest : List α) {k : Nat}
    (hk : k + 1 = string.length) (hpre : k + 1 ≤ pre.length) (h : string <:+ pre) :
    pre.length - (k + 1) + string.length ≤ (pre ++ rest).length ∧
      ((pre ++ rest).drop (pre.length - (k + 1))).take string.length = string := by
  obtain ⟨t, ht⟩ := h
  subst ht
  simp only [List.length_append] at hpre ⊢
  refine ⟨by omega, ?_⟩
  have e : t.length + string.length - (k + 1) = t.length := by omega
  rw [e, List.append_assoc, List.drop_left, List.take_left]

/-- Soundness of the search loop.  Suppose `pre` has been read, `state` is the
start value or an index below the last one of the search string, and the
`state + 1` first characters of the search string end `pre`.  Then a result
other than `NOT_FOUND` is the start of an occurrence of the search string in
the whole text `pre ++ suf`. -/
theorem search_loop_sound (string : List α) (hm : string.length < 4294967296) :
    ∀ (suf pre : List α) (state : Nat), pre.length + suf.length < 4294967296 →
      (state = NOT_FOUND ∨ state + 1 < string.length) →
      string.take (u32 (state + 1)) <:+ pre →
      search_loop string (repeat_states string) suf pre.length state ≠ NOT_FOUND →
      search_loop string (repeat_states string) suf pre.length state + string.length
          ≤ (pre ++ suf).length ∧
        ((pre ++ suf).drop
          (search_loop string (repeat_states string) suf pre.length state)).take string.length
          = string := by
  intro suf
  induction suf with
  | nil =>
    intro pre state _ _ _ hr
    simp [search_loop] at hr
  | cons c rest ih =>
    intro pre state hlen hst hsuf
    simp only [List.length_cons] at hlen
    have hi : u32 (pre.length + 1) = (pre ++ [c]).length := by
      rw [u32_of_lt (by omega)]; simp
    have hsplit : pre ++ c :: rest = (pre ++ [c]) ++ rest := by simp
    have hlen2 : (pre ++ [c]).length + rest.length < 4294967296 := by
      simp only [List.length_append, List.length_singleton]; omega
    have hk : state ≠ NOT_FOUND → state + 1 < string.length ∧ u32 (state + 1) = state + 1 := by
      intro hns
      rcases hst with h | h
      · exact absurd h hns
      · exact ⟨h, u32_of_lt (by omega)⟩
    have hkpre : u32 (state + 1) ≤ pre.length := by
      rcases hst with h | h
      · rw [h, u32_not_found_succ]; exact Nat.zero_le _
      · have := hsuf.length_le
        rw [List.length_take, u32_of_lt (by omega)] at this
        rw [u32_of_lt (by omega)]
        omega
    rw [search_loop]
    by_cases h1 : string[u32 (state + 1)]? = some c
    · rw [if_pos h1]
      have hsuf2 := take_succ_suffix hsuf h1
      have hk1 : u32 (state + 1) < string.length := by
        by_contra hge
        rw [List.getElem?_eq_none (by omega)] at h1
        exact absurd h1 (by simp)
      by_cases h2 : string[u32 (u32 (state + 1) + 1)]? = none
      · rw [if_pos h2]
        intro _
        rw [u32_of_lt (by omega), List.getElem?_eq_none_iff] at h2
        have hfull : u32 (state + 1) + 1 = string.length := by omega
        rw [List.take_of_length_le (by omega)] at hsuf2
        rw [usub_of_le hkpre (by omega), hsplit]
        have := occurrence_of_suffix rest hfull (by simp; omega) hsuf2
        simp only [List.length_append, List.length_singleton] at this ⊢
        have e : pre.length + 1 - (u32 (state + 1) + 1) = pre.length - u32 (state + 1) := by
          omega
        rw [e] at this
        exact this
      · rw [if_neg h2, hi, hsplit]
        rw [u32_of_lt (by omega), List.getElem?_eq_none_iff] at h2
        apply ih (pre ++ [c]) (u32 (state + 1)) hlen2 (Or.inr (by omega))
        rw [u32_of_lt (by omega)]
        exact hsuf2
    · rw [if_neg h1]
      by_cases h3 : state ≠ NOT_FOUND ∧ string[(repeat_states string).getD state 0]? = some c
      · rw [if_pos h3, hi, hsplit]
        obtain ⟨hb, hbs⟩ := repeat_states_border string hm state
        obtain ⟨hs0, hs1⟩ := hk h3.1
        apply ih (pre ++ [c]) ((repeat_states string).getD state 0) hlen2 (Or.inr (by omega))
        rw [u32_of_lt (by omega)]
        rw [hs1] at hsuf
        exact take_succ_suffix (hbs.trans hsuf) h3.2
      · rw [if_neg h3, hi, hsplit]
        apply ih (pre ++ [c]) NOT_FOUND hlen2 (Or.inl rfl)
        rw [u32_not_found_succ]
        simp

/-- Reading the search string itself.  When the part `done` of the search string
has been read and matched (`state + 1` is its length) and the text goes on with
the remaining part `todo`, the loop returns `0`, whatever follows in the text
and whatever the table holds. -/
theorem search_loop_self (string : List α) (rs : List Nat) (hm : string.length < 4294967296) :
    ∀ (todo done rest : List α) (state : Nat), string = done ++ todo → todo ≠ [] →
      u32 (state + 1) = done.length →
      search_loop string rs (todo ++ rest) done.length state = 0 := by
  intro todo
  induction todo with
  | nil => intro done rest state _ h; exact absurd rfl h
  | cons c todo ih =>
    intro done rest state hs _ hst
    have hlen : string.length = done.length + (todo.length + 1) := by
      rw [hs]; simp
    have h1 : string[u32 (state + 1)]? = some c := by
      rw [hst, hs]; exact getElem?_after done todo c
    rw [List.cons_append, search_loop, if_pos h1, hst, u32_of_lt (by omega)]
    by_cases h2 : string[done.length + 1]? = none
    · rw [if_pos h2]
      exact (usub_of_le (Nat.le_refl _) (by omega)).trans (Nat.sub_self _)
    · rw [if_neg h2]
      have htodo : todo ≠ [] := by
        intro h
        apply h2
        rw [List.getElem?_eq_none_iff, hlen, h]
        simp
      have e : done.length + 1 = (done ++ [c]).length := by simp
      rw [e]
      apply ih (done ++ [c]) rest done.length (by rw [hs]; simp) htodo
      rw [← e]
      exact u32_of_lt (by omega)

/-! ## The loop of `string_search_` -/

/-- When the character read is the next one of the search string, the matched
count goes up by one. -/
theorem step__advance {string : List α} {c : α} {match_index : Nat} (prefix_run : Nat)
    (h : string[match_index]? = some c) :
    (step_ string c match_index prefix_run).1 = u32 (match_index + 1) := by
  simp [step_, update_match_index, h]

/-- One pass of the loop body raises neither counter by more than one above
the larger of the two. -/
theorem step__le (string : List α) (c : α) {match_index prefix_run i : Nat}
    (hmi : match_index ≤ i) (hpr : prefix_run ≤ i) :
    (step_ string c match_index prefix_run).1 ≤ i + 1 ∧
      (step_ string c match_index prefix_run).2 ≤ i + 1 := by
  have hp : update_prefix_run string c match_index prefix_run ≤ i + 1 := by
    unfold update_prefix_run u32
    split_ifs <;> omega
  unfold step_ update_match_index u32
  split_ifs <;> simp <;> omega

/-- Reading the search string itself with `string_search_`: once the part `done`
has been matched and the text goes on with the remaining part `todo`, the loop
returns `0`, whatever `prefix_run` holds and whatever follows in the text. -/
theorem search_loop__self (string : List α) (hm : string.length < 4294967296) :
    ∀ (todo done rest : List α) (prefix_run : Nat), string = done ++ todo → todo ≠ [] →
      search_loop_ string (todo ++ rest) done.length done.length prefix_run = 0 := by
  intro todo
  induction todo with
  | nil => intro done rest pr _ h; exact absurd rfl h
  | cons c todo ih =>
    intro done rest pr hs _
    have hlen : string.length = done.length + (todo.length + 1) := by
      rw [hs]; simp
    have h1 : string[done.length]? = some c := by
      rw [hs]; exact getElem?_after done todo c
    rw [List.cons_append, search_loop_, step__advance pr h1, u32_of_lt (by omega)]
    by_cases h2 : string[done.length + 1]? = none
    · rw [if_pos h2]
      unfold usub u32
      omega
    · rw [if_neg h2]
      have htodo : todo ≠ [] := by
        intro h
        apply h2
        rw [List.getElem?_eq_none_iff, hlen, h]
        simp
      have e : done.length + 1 = (done ++ [c]).length := by simp
      rw [e]
      exact ih (done ++ [c]) rest _ (by rw [hs]; simp) htodo

/-- While fewer characters have been read than the search string has, neither
counter of `string_search_` can reach its length, so a text shorter than the
search string is read to its end. -/
theorem search_loop__short (string : List α) (hm : string.length < 4294967296) :
    ∀ (suf : List α) (i match_index prefix_run : Nat), match_index ≤ i → prefix_run ≤ i →
      i + suf.length < string.length →
      search_loop_ string suf i match_index prefix_run = NOT_FOUND := by
  intro suf
  induction suf with
  | nil => intro i mi pr _ _ _; rfl
  | cons c rest ih =>
    intro i mi pr hmi hpr hlen
    simp only [List.length_cons] at hlen
    obtain ⟨h1, h2⟩ := step__le string c hmi hpr
    have hget : ¬ string[(step_ string c mi pr).1]? = none := by
      rw [List.getElem?_eq_none_iff]; omega
    rw [search_loop_, if_neg hget, u32_of_lt (by omega)]
    exact ih (i + 1) _ _ h1 h2 (by omega)

/-! ## More on the table -/

/-- The table loop writes one entry per character it visits. -/
theorem repeat_loop_length (string : List α) :
    ∀ (rest : List α) (prev : Nat), (repeat_loop string rest prev).length = rest.length := by
  intro rest
  induction rest with
  | nil => intro prev; rfl
  | cons c rest ih => intro prev; simp [repeat_loop, ih]

/-- The table has one entry per character of a non-empty search string. -/
theorem repeat_states_length (string : List α) (hne : string ≠ []) :
    (repeat_states string).length = string.length := by
  cases string with
  | nil => exact absurd rfl hne
  | cons a tl => simp [repeat_states, repeat_loop_length]

/-! ## A search string of one character -/

/-- With a search string of one character `string_search` stays in its start
state until it reads that character, and returns the index where it reads it. -/
theorem search_loop_single_found (c : α) (rs : List Nat) :
    ∀ (pre rest : List α) (i : Nat), c ∉ pre → i + pre.length < 4294967296 →
      search_loop [c] rs (pre ++ c :: rest) i NOT_FOUND = i + pre.length := by
  intro pre
  induction pre with
  | nil =>
    intro rest i _ hi
    simp only [List.length_nil, Nat.add_zero] at hi
    have h1 : [c][u32 (NOT_FOUND + 1)]? = some c := by rw [u32_not_found_succ]; rfl
    have h2 : [c][u32 (u32 (NOT_FOUND + 1) + 1)]? = none := by
      rw [u32_not_found_succ]; rfl
    rw [List.nil_append, search_loop, if_pos h1, if_pos h2, u32_not_found_succ]
    simp only [List.length_nil, Nat.add_zero]
    exact usub_of_le (Nat.zero_le _) hi
  | cons d pre ih =>
    intro rest i hc hi
    simp only [List.length_cons] at hi
    have hd : c ≠ d := fun h => hc (by simp [h])
    have h1 : ¬ [c][u32 (NOT_FOUND + 1)]? = some d := by
      rw [u32_not_found_succ]; simpa using hd
    have h3 : ¬ (NOT_FOUND ≠ NOT_FOUND ∧ [c][rs.getD NOT_FOUND 0]? = some d) :=
      fun h => h.1 rfl
    rw [List.cons_append, search_loop, if_neg h1, if_neg h3, u32_of_lt (by omega),
      ih rest (i + 1) (fun h => hc (List.mem_cons_of_mem _ h)) (by omega)]
    simp only [List.length_cons]
    omega

/-- With a search string of one character `string_search` reads a text without
that character to its end. -/
theorem search_loop_single_absent (c : α) (rs : List Nat) :
    ∀ (text : List α) (i : Nat), c ∉ text → search_loop [c] rs text i NOT_FOUND = NOT_FOUND := by
  intro text
  induction text with
  | nil => intro i _; rfl
  | cons d text ih =>
    intro i hc
    have hd : c ≠ d := fun h => hc (by simp [h])
    have h1 : ¬ [c][u32 (NOT_FOUND + 1)]? = some d := by
      rw [u32_not_found_succ]; simpa using hd
    have h3 : ¬ (NOT_FOUND ≠ NOT_FOUND ∧ [c][rs.getD NOT_FOUND 0]? = some d) :=
      fun h => h.1 rfl
    rw [search_loop, if_neg h1, if_neg h3]
    exact ih _ (fun h => hc (List.mem_cons_of_mem _ h))

/-- With a search string of one character, reading another character leaves
both counters of `string_search_` at `0`. -/
theorem step__single_other {c d : α} (hd : c ≠ d) : step_ [c] d 0 0 = (0, 0) := by
  simp [step_, update_match_index, update_prefix_run, hd]

/-- With a search string of one character, reading that character sets
`match_index` to `1`. -/
theorem step__single_same (c : α) : (step_ [c] c 0 0).1 = 1 := by
  simp [step_, update_match_index, update_prefix_run, u32]

/-- With a search string of one character `string_search_` returns the index
where it first reads that character. -/
theorem search_loop__single_found (c : α) :
    ∀ (pre rest : List α) (i : Nat), c ∉ pre → i + pre.length < 4294967296 →
      search_loop_ [c] (pre ++ c :: rest) i 0 0 = i + pre.length := by
  intro pre
  induction pre with
  | nil =>
    intro rest i _ hi
    simp only [List.length_nil, Nat.add_zero] at hi ⊢
    have h1 : [c][1]? = none := rfl
    rw [List.nil_append, search_loop_, step__single_same, if_pos h1]
    unfold usub u32
    omega
  | cons d pre ih =>
    intro rest i hc hi
    simp only [List.length_cons] at hi
    have hd : c ≠ d := fun h => hc (by simp [h])
    have h0 : ¬ [c][0]? = none := by simp
    rw [List.cons_append, search_loop_, step__single_other hd, if_neg h0, u32_of_lt (by omega),
      ih rest (i + 1) (fun h => hc (List.mem_cons_of_mem _ h)) (by omega)]
    simp only [List.length_cons]
    omega

/-- With a search string of one character `string_search_` reads a text without
that character to its end. -/
theorem search_loop__single_absent (c : α) :
    ∀ (text : List α) (i : Nat), c ∉ text → search_loop_ [c] text i 0 0 = NOT_FOUND := by
  intro text
  induction text with
  | nil => intro i _; rfl
  | cons d text ih =>
    intro i hc
    have hd : c ≠ d := fun h => hc (by simp [h])
    have h0 : ¬ [c][0]? = none := by simp
    rw [search_loop_, step__single_other hd, if_neg h0]
    exact ih _ (fun h => hc (List.mem_cons_of_mem _ h))

/-- A text whose character `j` is the first `c` splits there. -/
theorem split_at_first {α : Type} (c : α) (text : List α) (j : Nat) (hj : text[j]? = some c)
    (hfirst : ∀ k, k < j → text[k]? ≠ some c) :
    text = text.take j ++ c :: text.drop (j + 1) ∧ c ∉ text.take j ∧
      (text.take j).length = j := by
  obtain ⟨hlt, hget⟩ := List.getElem?_eq_some.mp hj
  refine ⟨?_, ?_, ?_⟩
  · rw [← hget, List.getElem_cons_drop, List.take_append_drop]
  · intro hmem
    obtain ⟨k, hk⟩ := List.mem_iff_getElem?.mp hmem
    rw [List.getElem?_take] at hk
    by_cases hkj : k < j
    · rw [if_pos hkj] at hk
      exact hfirst k hkj hk
    · rw [if_neg hkj] at hk
      exact absurd hk (by simp)
  · rw [List.length_take]; omega

/-! ## Ranges of the variables and of the array accesses -/

/-- A cell of the search string that holds a character lies inside it. -/
theorem lt_length_of_getElem? {α : Type} {string : List α} {k : Nat} {c : α}
    (h : string[k]? = some c) : k < string.length :=
  (List.getElem?_eq_some.mp h).1

theorem u32_le (n : Nat) : u32 n ≤ n := by
  unfold u32; omega

/-- A table entry is at most one more than the entry before it, and at most
`1` when the run does not go on. -/
theorem repeat_step_le (string : List α) (prev : Nat) (c : α) {i : Nat}
    (hprev : prev < i) : repeat_step string prev c ≤ i := by
  unfold repeat_step u32
  split_ifs <;> omega

/-- The table loop stays inside the search string and inside the table: at
position `done.length`, with `prev` an entry smaller than the position, every
access is in range. -/
theorem repeat_accesses_in_range (string : List α) (hm : string.length < 4294967296) :
    ∀ (rest done : List α) (prev : Nat), string = done ++ rest → done ≠ [] →
      prev < done.length →
      (repeat_accesses string rest done.length prev).all (Access.in_range string.length)
        = true := by
  intro rest
  induction rest with
  | nil =>
    intro done prev hs _ _
    have hlen : string.length = done.length := by rw [hs]; simp
    simp [repeat_accesses, Access.in_range, hlen]
  | cons c rest ih =>
    intro done prev hs hne hprev
    have hlen : string.length = done.length + (rest.length + 1) := by rw [hs]; simp
    have hpos : 1 ≤ done.length := by
      cases done with
      | nil => exact absurd rfl hne
      | cons a tl => simp
    have hsub : usub done.length 1 = done.length - 1 := usub_of_le hpos (by omega)
    have hrec := ih (done ++ [c]) (repeat_step string prev c) (by rw [hs]; simp) (by simp)
      (by simp only [List.length_append, List.length_singleton]
          exact Nat.lt_succ_of_le (repeat_step_le string prev c hprev))
    simp only [List.length_append, List.length_singleton] at hrec
    rw [repeat_accesses, u32_of_lt (by omega), List.all_append, List.all_append, hrec, hsub]
    by_cases h1 : string[prev]? = some c
    · simp only [if_pos h1, List.all_cons, List.all_nil, Access.in_range, Bool.and_true,
        Bool.and_eq_true, decide_eq_true_eq]
      omega
    · simp only [if_neg h1, List.all_cons, List.all_nil, Access.in_range, Bool.and_true,
        Bool.and_eq_true, decide_eq_true_eq]
      omega

/-- The search loop of `string_search` stays inside the search string and
inside the table, from the start state or from any state below the last
index. -/
theorem search_accesses_in_range (string : List α) (hm : string.length < 4294967296) :
    ∀ (text : List α) (state : Nat), (state = NOT_FOUND ∨ state + 1 < string.length) →
      (search_accesses string (repeat_states string) text state).all
        (Access.in_range string.length) = true := by
  intro text
  induction text with
  | nil => intro state _; rfl
  | cons c rest ih =>
    intro state hst
    have hk : u32 (state + 1) ≤ string.length := by
      rcases hst with h | h
      · rw [h, u32_not_found_succ]; exact Nat.zero_le _
      · rw [u32_of_lt (by omega)]; omega
    rw [search_accesses]
    by_cases h1 : string[u32 (state + 1)]? = some c
    · have hk1 := lt_length_of_getElem? h1
      have hk2 : u32 (u32 (state + 1) + 1) = u32 (state + 1) + 1 := u32_of_lt (by omega)
      rw [if_pos h1]
      by_cases h2 : string[u32 (u32 (state + 1) + 1)]? = none
      · rw [if_pos h2]
        simp only [List.all_cons, List.all_nil, Access.in_range, Bool.and_true,
          Bool.and_eq_true, decide_eq_true_eq]
        omega
      · rw [if_neg h2]
        rw [List.getElem?_eq_none_iff, hk2] at h2
        have hrec := ih (u32 (state + 1)) (Or.inr (by omega))
        simp only [List.all_cons, hrec, Access.in_range, Bool.and_true,
          Bool.and_eq_true, decide_eq_true_eq]
        omega
    · rw [if_neg h1]
      by_cases h3 : state ≠ NOT_FOUND
      · have hs : state + 1 < string.length := by
          rcases hst with h | h
          · exact absurd h h3
          · exact h
        obtain ⟨hb, _⟩ := repeat_states_border string hm state
        rw [if_pos h3]
        by_cases h4 : string[(repeat_states string).getD state 0]? = some c
        · rw [if_pos h4]
          have hrec := ih ((repeat_states string).getD state 0) (Or.inr (by omega))
          simp only [List.all_cons, hrec, Access.in_range, Bool.and_true,
            Bool.and_eq_true, decide_eq_true_eq]
          omega
        · rw [if_neg h4]
          have hrec := ih NOT_FOUND (Or.inl rfl)
          simp only [List.all_cons, hrec, Access.in_range, Bool.and_true,
            Bool.and_eq_true, decide_eq_true_eq]
          omega
      · rw [if_neg h3]
        have hrec := ih NOT_FOUND (Or.inl rfl)
        simp only [List.all_cons, hrec, Access.in_range, Bool.and_true,
          Bool.and_eq_true, decide_eq_true_eq]
        omega

/-- One pass of the loop body of `string_search_` keeps both counters at most
the length of the search string. -/
theorem step__le_length (string : List α) (c : α) (match_index : Nat) {prefix_run : Nat}
    (hpr : prefix_run ≤ string.length) :
    (step_ string c match_index prefix_run).1 ≤ string.length ∧
      (step_ string c match_index prefix_run).2 ≤ string.length := by
  have hp : update_prefix_run string c match_index prefix_run ≤ string.length := by
    unfold update_prefix_run
    split_ifs with _ h1 h2
    · have := lt_length_of_getElem? h1
      have := u32_le (prefix_run + 1)
      omega
    · have := lt_length_of_getElem? h2
      omega
    · exact Nat.zero_le _
    · exact hpr
  unfold step_ update_match_index
  split_ifs with h1 h2
  · have := lt_length_of_getElem? h1
    have := u32_le (match_index + 1)
    exact ⟨by simp only; omega, hp⟩
  · have := lt_length_of_getElem? h2
    exact ⟨by simp only; omega, hp⟩
  · exact ⟨hp, Nat.zero_le _⟩

/-- The loop of `string_search_` stays inside the search string as long as both
counters start at most its length. -/
theorem search_accesses__in_range (string : List α) :
    ∀ (text : List α) (match_index prefix_run : Nat), match_index ≤ string.length →
      prefix_run ≤ string.length →
      (search_accesses_ string text match_index prefix_run).all
        (Access.in_range string.length) = true := by
  intro text
  induction text with
  | nil => intro mi pr _ _; rfl
  | cons c rest ih =>
    intro mi pr hmi hpr
    obtain ⟨h1, h2⟩ := step__le_length string c mi hpr
    have hstep : (step_accesses_ string c mi pr).all (Access.in_range string.length) = true := by
      unfold step_accesses_
      rw [List.all_append, List.all_append]
      split_ifs <;>
        simp only [List.all_cons, List.all_nil, Access.in_range, Bool.and_true, Bool.true_and,
          Bool.and_eq_true, decide_eq_true_eq] <;> omega
    rw [search_accesses_]
    split_ifs
    · exact hstep
    · rw [List.all_append, hstep, ih _ _ h1 h2]
      rfl

/-- Along the search loop of `string_search` the number of matched characters
`state + 1` is at most the length of the search string, and a `state` other
than the start value is at most the index `i` of the character just read, so
that `i - state` is an exact difference. -/
theorem search_trace_range (string : List α) (hm : string.length < 4294967296) :
    ∀ (suf : List α) (i state : Nat), i + suf.length < 4294967296 →
      (state = NOT_FOUND ∨ (state + 1 < string.length ∧ state + 1 ≤ i)) →
      ∀ e ∈ search_trace string (repeat_states string) suf i state,
        u32 (e.2 + 1) ≤ string.length ∧
          (e.2 ≠ NOT_FOUND → e.2 ≤ e.1 ∧ usub e.1 e.2 = e.1 - e.2) := by
  intro suf
  induction suf with
  | nil => intro i state _ _ e he; simp [search_trace] at he
  | cons c rest ih =>
    intro i state hlen hst
    simp only [List.length_cons] at hlen
    have hi : u32 (i + 1) = i + 1 := u32_of_lt (by omega)
    have hk : u32 (state + 1) ≤ i := by
      rcases hst with h | h
      · rw [h, u32_not_found_succ]; exact Nat.zero_le _
      · rw [u32_of_lt (by omega)]; omega
    rw [search_trace]
    by_cases h1 : string[u32 (state + 1)]? = some c
    · have hk1 := lt_length_of_getElem? h1
      have hk2 : u32 (u32 (state + 1) + 1) = u32 (state + 1) + 1 := u32_of_lt (by omega)
      have hhead : u32 (u32 (state + 1) + 1) ≤ string.length ∧
          (u32 (state + 1) ≠ NOT_FOUND →
            u32 (state + 1) ≤ i ∧ usub i (u32 (state + 1)) = i - u32 (state + 1)) :=
        ⟨by omega, fun _ => ⟨hk, usub_of_le hk (by omega)⟩⟩
      rw [if_pos h1]
      by_cases h2 : string[u32 (u32 (state + 1) + 1)]? = none
      · rw [if_pos h2]
        intro e he
        rw [List.mem_singleton] at he
        subst he
        exact hhead
      · rw [if_neg h2, hi]
        rw [List.getElem?_eq_none_iff, hk2] at h2
        intro e he
        rcases List.mem_cons.mp he with h | h
        · subst h; exact hhead
        · exact ih (i + 1) (u32 (state + 1)) (by omega) (Or.inr ⟨by omega, by omega⟩) e h
    · rw [if_neg h1]
      by_cases h3 : state ≠ NOT_FOUND ∧ string[(repeat_states string).getD state 0]? = some c
      · have hs : state + 1 < string.length ∧ state + 1 ≤ i := by
          rcases hst with h | h
          · exact absurd h h3.1
          · exact h
        obtain ⟨hb, _⟩ := repeat_states_border string hm state
        rw [if_pos h3, hi]
        intro e he
        rcases List.mem_cons.mp he with h | h
        · subst h
          exact ⟨by rw [u32_of_lt (by omega)]; omega,
            fun _ => ⟨by omega, usub_of_le (by omega) (by omega)⟩⟩
        · exact ih (i + 1) _ (by omega) (Or.inr ⟨by omega, by omega⟩) e h
      · rw [if_neg h3, hi]
        intro e he
        rcases List.mem_cons.mp he with h | h
        · subst h
          exact ⟨by rw [u32_not_found_succ]; exact Nat.zero_le _, fun hne => absurd rfl hne⟩
        · exact ih (i + 1) NOT_FOUND (by omega) (Or.inl rfl) e h

/-- Along the loop of `string_search_` both counters are at most the length of
the search string, `match_index` is at most `i + 1`, and `i + 1` is still a
value of `unsigned int`. -/
theorem search_trace__range (string : List α) :
    ∀ (suf : List α) (i match_index prefix_run : Nat), i + suf.length < 4294967296 →
      match_index ≤ i → prefix_run ≤ i → match_index ≤ string.length →
      prefix_run ≤ string.length →
      ∀ e ∈ search_trace_ string suf i match_index prefix_run,
        e.2.1 ≤ string.length ∧ e.2.2 ≤ string.length ∧ e.2.1 ≤ e.1 + 1 ∧
          e.1 + 1 < 4294967296 := by
  intro suf
  induction suf with
  | nil => intro i mi pr _ _ _ _ _ e he; simp [search_trace_] at he
  | cons c rest ih =>
    intro i mi pr hlen hmi hpr hmim hprm
    simp only [List.length_cons] at hlen
    obtain ⟨h1, h2⟩ := step__le string c hmi hpr
    obtain ⟨h3, h4⟩ := step__le_length string c mi hprm
    have hhead : (step_ string c mi pr).1 ≤ string.length ∧
        (step_ string c mi pr).2 ≤ string.length ∧ (step_ string c mi pr).1 ≤ i + 1 ∧
        i + 1 < 4294967296 :=
      ⟨h3, h4, h1, by omega⟩
    rw [search_trace_]
    split_ifs
    · intro e he
      rw [List.mem_singleton] at he
      subst he
      exact hhead
    · rw [u32_of_lt (by omega)]
      intro e he
      rcases List.mem_cons.mp he with h | h
      · subst h; exact hhead
      · exact ih (i + 1) _ _ (by omega) h1 h2 h3 h4 e h

/-- A result of the loop of `string_search_` other than `NOT_FOUND` leaves room
for the search string before the end of the text. -/
theorem search_loop__bound (string : List α) :
    ∀ (suf : List α) (i match_index prefix_run : Nat), i + suf.length < 4294967296 →
      match_index ≤ i → prefix_run ≤ i →
      search_loop_ string suf i match_index prefix_run ≠ NOT_FOUND →
      search_loop_ string suf i match_index prefix_run + string.length ≤ i + suf.length := by
  intro suf
  induction suf with
  | nil => intro i mi pr _ _ _ hr; exact absurd rfl hr
  | cons c rest ih =>
    intro i mi pr hlen hmi hpr
    simp only [List.length_cons] at hlen
    obtain ⟨h1, h2⟩ := step__le string c hmi hpr
    rw [search_loop_]
    split_ifs with h
    · intro _
      rw [List.getElem?_eq_none_iff] at h
      simp only [List.length_cons]
      unfold usub u32
      omega
    · rw [u32_of_lt (by omega)]
      intro hr
      have := ih (i + 1) _ _ (by omega) h1 h2 hr
      simp only [List.length_cons]
      omega

/-! ## A text without any character of the search string -/

/-- On a text none of whose characters is in the search string, `string_search`
never leaves its start state. -/
theorem search_loop_absent (string : List α) (rs : List Nat) :
    ∀ (text : List α) (i : Nat), (∀ d ∈ text, d ∉ string) →
      search_loop string rs text i NOT_FOUND = NOT_FOUND := by
  intro text
  induction text with
  | nil => intro i _; rfl
  | cons d text ih =>
    intro i hc
    have h1 : ¬ string[u32 (NOT_FOUND + 1)]? = some d := by
      intro h
      exact hc d (List.mem_cons_self _ _) (List.mem_iff_getElem?.mpr ⟨_, h⟩)
    have h3 : ¬ (NOT_FOUND ≠ NOT_FOUND ∧ string[rs.getD NOT_FOUND 0]? = some d) :=
      fun h => h.1 rfl
    rw [search_loop, if_neg h1, if_neg h3]
    exact ih _ (fun e he => hc e (List.mem_cons_of_mem _ he))

/-- Reading a character that is not in the search string with both counters at
`0` leaves them at `0`. -/
theorem step__absent {string : List α} {d : α} (hd : d ∉ string) :
    step_ string d 0 0 = (0, 0) := by
  have h0 : ¬ string[0]? = some d := fun h => hd (List.mem_iff_getElem?.mpr ⟨_, h⟩)
  simp [step_, update_match_index, update_prefix_run, h0]

/-- On a text none of whose characters is in the non-empty search string,
`string_search_` keeps both counters at `0` and reads the text to its end. -/
theorem search_loop__absent (string : List α) (hne : string ≠ []) :
    ∀ (text : List α) (i : Nat), (∀ d ∈ text, d ∉ string) →
      search_loop_ string text i 0 0 = NOT_FOUND := by
  intro text
  induction text with
  | nil => intro i _; rfl
  | cons d text ih =>
    intro i hc
    have h0 : ¬ string[0]? = none := by
      rw [List.getElem?_eq_none_iff]
      have := List.length_pos.mpr hne
      omega
    rw [search_loop_, step__absent (hc d (List.mem_cons_self _ _)), if_neg h0]
    exact ih _ (fun e he => hc e (List.mem_cons_of_mem _ he))

/-- Every array access of `string_search`, table loop and search loop, is in
range for a non-empty search string. -/
theorem string_search_accesses_in_range (string text : List α) (hne : string ≠ [])
    (hm : string.length < 4294967296) :
    (string_search_accesses string text).all (Access.in_range string.length) = true := by
  cases string with
  | nil => exact absurd rfl hne
  | cons a tl =>
    have h1 := repeat_accesses_in_range (a :: tl) hm tl [a] 0 rfl (by simp) (by simp)
    have h2 := search_accesses_in_range (a :: tl) hm text NOT_FOUND (Or.inl rfl)
    simp only [List.length_singleton] at h1
    unfold string_search_accesses
    rw [List.all_append, List.all_cons, List.tail_cons, h1, h2]
    simp [Access.in_range]

/-! ## Search strings whose first character is not repeated -/

/-- An occurrence at `j` puts character `x` of the search string at index
`j + x` of the text. -/
theorem occurs_at_getElem? {α : Type} {pattern text : List α} {j : Nat} (h : occurs_at pattern text j)
    (x : Nat) (hx : x < pattern.length) : text[j + x]? = pattern[x]? := by
  have h2 := congrArg (fun l => l[x]?) h.2
  simp only [List.getElem?_take, if_pos hx, List.getElem?_drop] at h2
  exact h2

/-- A matched run of length `k` that ends `pre` puts character `x` of the search
string at index `pre.length - k + x`. -/
theorem suffix_getElem? {α : Type} {string pre : List α} {k : Nat}
    (h : string.take k <:+ pre) (hk : k ≤ string.length) (x : Nat) (hx : x < k) :
    pre[pre.length - k + x]? = string[x]? := by
  obtain ⟨t, ht⟩ := h
  subst ht
  have hlen : (List.take k string).length = k := by rw [List.length_take]; omega
  have e : (t ++ List.take k string).length - k + x = t.length + x := by
    rw [List.length_append, hlen]; omega
  rw [e, List.getElem?_append_right (by omega), Nat.add_sub_cancel_left,
    List.getElem?_take, if_pos hx]

/-- When the first character of the search string is not repeated, a mismatch
after a matched run of length `k` rules out every occurrence that starts
inside the run. -/
theorem no_occurrence_in_run {α : Type} {string pre rest : List α} {c : α} {k : Nat}
    (hfirst : ∀ x, 0 < x → string[x]? ≠ string[0]?)
    (hsuf : string.take k <:+ pre) (hk : k < string.length) (hmis : string[k]? ≠ some c) :
    ∀ j, pre.length - k ≤ j → j < pre.length → ¬ occurs_at string (pre ++ c :: rest) j := by
  intro j hj1 hj2 hocc
  have hkpre : k ≤ pre.length := by
    have := hsuf.length_le
    rw [List.length_take] at this
    omega
  by_cases hj : j = pre.length - k
  · have h := occurs_at_getElem? hocc k hk
    have e : j + k = pre.length := by omega
    rw [e, getElem?_after] at h
    exact hmis h.symm
  · have hx : j - (pre.length - k) < k := by omega
    have h1 := suffix_getElem? hsuf (Nat.le_of_lt hk) (j - (pre.length - k)) hx
    have e : pre.length - k + (j - (pre.length - k)) = j := by omega
    rw [e] at h1
    have h2 := occurs_at_getElem? hocc 0 (by omega)
    rw [Nat.add_zero, List.getElem?_append_left hj2] at h2
    exact hfirst (j - (pre.length - k)) (by omega) (h1.symm.trans h2)

/-- A character other than `string[0]` cannot start an occurrence. -/
theorem no_occurrence_here {α : Type} {string pre rest : List α} {c : α} (hne : string ≠ [])
    (hmis : string[0]? ≠ some c) : ¬ occurs_at string (pre ++ c :: rest) pre.length := by
  intro hocc
  have h := occurs_at_getElem? hocc 0 (List.length_pos.mpr hne)
  rw [Nat.add_zero, getElem?_after] at h
  exact hmis h.symm

/-- When the first character of the search string is not repeated, the table
loop started with `prev = 0` writes only zeros. -/
theorem repeat_loop_zero (string : List α) :
    ∀ (rest : List α), (∀ c ∈ rest, string[0]? ≠ some c) →
      ∀ j : Nat, (repeat_loop string rest 0).getD j 0 = 0 := by
  intro rest
  induction rest with
  | nil => intro _ j; simp [repeat_loop]
  | cons c rest ih =>
    intro hc j
    have h0 : repeat_step string 0 c = 0 := by
      have := hc c (List.mem_cons_self _ _)
      simp [repeat_step, this]
    rw [repeat_loop, h0]
    cases j with
    | zero => rfl
    | succ j =>
      rw [List.getD_cons_succ]
      exact ih (fun d hd => hc d (List.mem_cons_of_mem _ hd)) j

/-- When the first character of the search string is not repeated, every entry
of `repeat_states` is `0`. -/
theorem repeat_states_zero (string : List α)
    (hfirst : ∀ x, 0 < x → string[x]? ≠ string[0]?) (s : Nat) :
    (repeat_states string).getD s 0 = 0 := by
  unfold repeat_states
  cases s with
  | zero => rfl
  | succ j =>
    rw [List.getD_cons_succ]
    apply repeat_loop_zero
    intro c hc h0
    cases string with
    | nil => simp at hc
    | cons a tl =>
      obtain ⟨n, hn⟩ := List.mem_iff_getElem?.mp hc
      apply hfirst (n + 1) (Nat.succ_pos _)
      rw [h0]
      simpa using hn

/-- Completeness of the search loop when the first character of the search
string is not repeated.  Suppose `pre` has been read, the `state + 1` first
characters of the search string end `pre`, and no occurrence starts before
that run.  Then no occurrence starts before the result; for the result
`NOT_FOUND` this covers every index of the text. -/
theorem search_loop_first (string : List α) (hm : string.length < 4294967296)
    (hne : string ≠ []) (hfirst : ∀ x, 0 < x → string[x]? ≠ string[0]?) :
    ∀ (suf pre : List α) (state : Nat), pre.length + suf.length < 4294967296 →
      (state = NOT_FOUND ∨ state + 1 < string.length) →
      string.take (u32 (state + 1)) <:+ pre →
      (∀ j, j + u32 (state + 1) < pre.length → ¬ occurs_at string (pre ++ suf) j) →
      ∀ j, j < search_loop string (repeat_states string) suf pre.length state →
        ¬ occurs_at string (pre ++ suf) j := by
  have hpos : 0 < string.length := List.length_pos.mpr hne
  intro suf
  induction suf with
  | nil =>
    intro pre state _ hst _ hinv j _ hocc
    have hk : u32 (state + 1) < string.length := by
      rcases hst with h | h
      · rw [h, u32_not_found_succ]; exact hpos
      · rw [u32_of_lt (by omega)]; exact h
    have h1 := hocc.1
    simp only [List.append_nil] at h1
    exact hinv j (by omega) hocc
  | cons c rest ih =>
    intro pre state hlen hst hsuf hinv
    simp only [List.length_cons] at hlen
    have hi : u32 (pre.length + 1) = (pre ++ [c]).length := by
      rw [u32_of_lt (by omega)]; simp
    have hsplit : pre ++ c :: rest = (pre ++ [c]) ++ rest := by simp
    have hlen2 : (pre ++ [c]).length + rest.length < 4294967296 := by
      simp only [List.length_append, List.length_singleton]; omega
    have hk : u32 (state + 1) < string.length := by
      rcases hst with h | h
      · rw [h, u32_not_found_succ]; exact hpos
      · rw [u32_of_lt (by omega)]; exact h
    have hkpre : u32 (state + 1) ≤ pre.length := by
      have := hsuf.length_le
      rw [List.length_take] at this
      omega
    rw [search_loop]
    by_cases h1 : string[u32 (state + 1)]? = some c
    · rw [if_pos h1]
      have hk2 : u32 (u32 (state + 1) + 1) = u32 (state + 1) + 1 := u32_of_lt (by omega)
      by_cases h2 : string[u32 (u32 (state + 1) + 1)]? = none
      · rw [if_pos h2, usub_of_le hkpre (by omega)]
        intro j hj
        exact hinv j (by omega)
      · rw [if_neg h2, hi, hsplit]
        rw [hk2, List.getElem?_eq_none_iff] at h2
        apply ih (pre ++ [c]) (u32 (state + 1)) hlen2 (Or.inr (by omega))
        · rw [hk2]; exact take_succ_suffix hsuf h1
        · intro j hj
          rw [hk2] at hj
          simp only [List.length_append, List.length_singleton] at hj
          rw [← hsplit]
          exact hinv j (by omega)
    · rw [if_neg h1]
      have hwindow : ∀ j, j < pre.length → ¬ occurs_at string (pre ++ c :: rest) j := by
        intro j hj
        by_cases hjk : j + u32 (state + 1) < pre.length
        · exact hinv j hjk
        · exact no_occurrence_in_run hfirst hsuf hk h1 j (by omega) hj
      by_cases h3 : state ≠ NOT_FOUND ∧ string[(repeat_states string).getD state 0]? = some c
      · rw [if_pos h3, hi, hsplit]
        have hs : state + 1 < string.length := by
          rcases hst with h | h
          · exact absurd h h3.1
          · exact h
        have hz := repeat_states_zero string hfirst state
        rw [hz] at h3 ⊢
        have h01 : u32 (0 + 1) = 1 := rfl
        apply ih (pre ++ [c]) 0 hlen2 (Or.inr (by omega))
        · rw [h01]; exact take_one_suffix h3.2
        · intro j hj
          rw [h01] at hj
          simp only [List.length_append, List.length_singleton] at hj
          rw [← hsplit]
          exact hwindow j (by omega)
      · rw [if_neg h3, hi, hsplit]
        have h0 : string[0]? ≠ some c := by
          by_cases hs : state = NOT_FOUND
          · rw [hs, u32_not_found_succ] at h1
            exact h1
          · intro h
            apply h3
            rw [repeat_states_zero string hfirst state]
            exact ⟨hs, h⟩
        apply ih (pre ++ [c]) NOT_FOUND hlen2 (Or.inl rfl)
        · rw [u32_not_found_succ]; simp
        · intro j hj
          rw [u32_not_found_succ] at hj
          simp only [List.length_append, List.length_singleton, Nat.add_zero] at hj
          rw [← hsplit]
          by_cases hjp : j < pre.length
          · exact hwindow j hjp
          · have e : j = pre.length := by omega
            rw [e]
            exact no_occurrence_here hne h0

/-- The first character of the search string is at no later position: the form
by positions of the statement that it is not among the characters after it. -/
theorem first_not_repeated_index {α : Type} (string : List α)
    (hfirst : ∀ c ∈ string.tail, string[0]? ≠ some c) (hne : string ≠ []) :
    ∀ x, 0 < x → string[x]? ≠ string[0]? := by
  intro x hx h
  cases string with
  | nil => exact hne rfl
  | cons a tl =>
    cases x with
    | zero => exact absurd hx (Nat.lt_irrefl 0)
    | succ n =>
      have hn : tl[n]? = some a := by simpa using h
      exact hfirst a (List.mem_iff_getElem?.mpr ⟨n, hn⟩) (List.getElem?_cons_zero ..)

/-! ## The classical failure value -/

/-- The value `longest_border_upto s bound` is at most `bound`, is the length of
a run that both starts and ends `s`, and no such run of length at most `bound`
is longer. -/
theorem longest_border_upto_spec (s : List α) :
    ∀ bound : Nat, longest_border_upto s bound ≤ bound ∧
      s.take (longest_border_upto s bound) = s.drop (s.length - longest_border_upto s bound) ∧
      ∀ b, b ≤ bound → s.take b = s.drop (s.length - b) → b ≤ longest_border_upto s bound := by
  intro bound
  induction bound with
  | zero =>
    refine ⟨Nat.le_refl _, ?_, fun b hb _ => hb⟩
    simp [longest_border_upto]
  | succ n ih =>
    rw [longest_border_upto]
    by_cases h : s.take (n + 1) = s.drop (s.length - (n + 1))
    · rw [if_pos h]
      exact ⟨Nat.le_refl _, h, fun b hb _ => hb⟩
    · rw [if_neg h]
      obtain ⟨h1, h2, h3⟩ := ih
      refine ⟨Nat.le_succ_of_le h1, h2, ?_⟩
      intro b hb hborder
      by_cases hbn : b = n + 1
      · rw [hbn] at hborder
        exact absurd hborder h
      · exact h3 b (by omega) hborder

end Lemmas

/-! ## The matcher `string_search` -/

section Claims

variable {α : Type} [DecidableEq α]

/-- Claim C1 (match at the returned index, table matcher): for a non-empty search
string and a text, both of a length an `unsigned int` can count, a result `r`
of `string_search` other than `NOT_FOUND` satisfies `r + m ≤ len(text)` and the
`m` characters of the text from `r` on are the search string. -/
theorem string_search_match (pattern text : List α) (_hne : pattern ≠ [])
    (hm : pattern.length < 4294967296) (ht : text.length < 4294967296)
    (hr : string_search pattern text ≠ NOT_FOUND) :
    string_search pattern text + pattern.length ≤ text.length ∧
      (text.drop (string_search pattern text)).take pattern.length = pattern := by
  have h := search_loop_sound pattern hm text [] NOT_FOUND (by simpa using ht) (Or.inl rfl)
    (by rw [u32_not_found_succ]; simp) hr
  simpa [string_search] using h

/-- Claim C10 (text shorter than the search string): for a non-empty search
string of a length an `unsigned int` can count and a text shorter than it, the
empty text included, both matchers return `NOT_FOUND`. -/
theorem no_match_on_shorter_text (pattern text : List α) (_hne : pattern ≠ [])
    (hm : pattern.length < 4294967296) (hlt : text.length < pattern.length) :
    string_search pattern text = NOT_FOUND ∧ string_search_ pattern text = NOT_FOUND := by
  constructor
  · by_contra hr
    have h := search_loop_sound pattern hm text [] NOT_FOUND (by simp; omega) (Or.inl rfl)
      (by rw [u32_not_found_succ]; simp) hr
    have h1 := h.1
    simp only [List.nil_append] at h1
    omega
  · exact search_loop__short pattern hm text 0 0 0 (Nat.le_refl _) (Nat.le_refl _) (by omega)

/-- Claim C9 (self-match): for a non-empty search string `p` of a length an
`unsigned int` can count, `string_search p p` and `string_search_ p p` are `0`. -/
theorem self_match (p : List α) (hne : p ≠ []) (hm : p.length < 4294967296) :
    string_search p p = 0 ∧ string_search_ p p = 0 := by
  constructor
  · have h := search_loop_self p (repeat_states p) hm p [] [] NOT_FOUND rfl hne
      u32_not_found_succ
    simpa [string_search] using h
  · have h := search_loop__self p hm p [] [] 0 rfl hne
    simpa [string_search_] using h

/-- Claim C11 (search string of one character): for a search string made of the
single character `c` and a text of a length an `unsigned int` can count, both
matchers return `NOT_FOUND` when `c` is not in the text, and otherwise the
smallest index `j` with `text[j] = c`. -/
theorem single_character_pattern (c : α) (text : List α) (ht : text.length < 4294967296) :
    (c ∉ text → string_search [c] text = NOT_FOUND ∧ string_search_ [c] text = NOT_FOUND) ∧
    (∀ j : Nat, text[j]? = some c → (∀ k, k < j → text[k]? ≠ some c) →
      string_search [c] text = j ∧ string_search_ [c] text = j) := by
  refine ⟨fun hc => ⟨search_loop_single_absent c _ text 0 hc,
    search_loop__single_absent c text 0 hc⟩, ?_⟩
  intro j hj hfirst
  obtain ⟨hsplit, hnot, hlen⟩ := split_at_first c text j hj hfirst
  have hjlt : j < text.length := (List.getElem?_eq_some.mp hj).1
  have hb : 0 + (text.take j).length < 4294967296 := by omega
  constructor
  · have h := search_loop_single_found c (repeat_states [c]) (text.take j) (text.drop (j + 1)) 0
      hnot hb
    rw [← hsplit, hlen, Nat.zero_add] at h
    exact h
  · have h := search_loop__single_found c (text.take j) (text.drop (j + 1)) 0 hnot hb
    rw [← hsplit, hlen, Nat.zero_add] at h
    exact h

/-- Claim C15 (table entries are lengths of proper runs): for a non-empty search
string of length `m` that an `unsigned int` can count, the table has `m`
entries, and for every position `i < m` the entry `repeat_states[i]` is at most
`i` and the first `repeat_states[i]` characters of the search string are the
last `repeat_states[i]` characters of `pattern[0..i]`. -/
theorem repeat_states_entries (pattern : List α) (hne : pattern ≠ [])
    (hm : pattern.length < 4294967296) :
    (repeat_states pattern).length = pattern.length ∧
    ∀ i : Nat, i < pattern.length →
      (repeat_states pattern).getD i 0 ≤ i ∧
        pattern.take ((repeat_states pattern).getD i 0) =
          (pattern.take (i + 1)).drop (i + 1 - (repeat_states pattern).getD i 0) := by
  refine ⟨repeat_states_length pattern hne, ?_⟩
  intro i hi
  obtain ⟨hb, hsuf⟩ := repeat_states_border pattern hm i
  refine ⟨hb, ?_⟩
  have h := List.suffix_iff_eq_drop.mp hsuf
  rw [List.length_take, List.length_take, Nat.min_eq_left (by omega),
    Nat.min_eq_left (by omega)] at h
  exact h

/-- Claim C17 (an occurrence at the start is found): for a non-empty search
string `p` of a length an `unsigned int` can count and any text that begins
with `p`, both matchers return `0`. -/
theorem occurrence_at_start (p rest : List α) (hne : p ≠ []) (hm : p.length < 4294967296) :
    string_search p (p ++ rest) = 0 ∧ string_search_ p (p ++ rest) = 0 := by
  constructor
  · have h := search_loop_self p (repeat_states p) hm p [] rest NOT_FOUND rfl hne
      u32_not_found_succ
    simpa [string_search] using h
  · have h := search_loop__self p hm p [] rest 0 rfl hne
    simpa [string_search_] using h

/-- Claim C13 (text without any character of the search string): for a non-empty
search string and a text, both of a length an `unsigned int` can count, such
that no character of the text occurs in the search string, both matchers return
`NOT_FOUND`, and every array access they make is in range. -/
theorem no_matching_characters (pattern text : List α) (hne : pattern ≠ [])
    (hm : pattern.length < 4294967296) (_ht : text.length < 4294967296)
    (hno : ∀ d ∈ text, d ∉ pattern) :
    (string_search pattern text = NOT_FOUND ∧ string_search_ pattern text = NOT_FOUND) ∧
    (∀ a ∈ string_search_accesses pattern text, a.in_range pattern.length = true) ∧
    (∀ a ∈ string_search__accesses pattern text, a.in_range pattern.length = true) := by
  refine ⟨⟨search_loop_absent pattern _ text 0 hno, search_loop__absent pattern hne text 0 hno⟩,
    ?_, ?_⟩
  · exact List.all_eq_true.mp (string_search_accesses_in_range pattern text hne hm)
  · exact List.all_eq_true.mp
      (search_accesses__in_range pattern text 0 0 (Nat.zero_le _) (Nat.zero_le _))

/-- Claim C14 (range of the state): for a non-empty search string of length `m`
and a text, both of a length an `unsigned int` can count, after every pass
through the loop body (before the first one the counts are `0`) the number of
matched characters (`state + 1` on `unsigned int` in `string_search`, so `0` for
the start state; `match_index` in `string_search_`) is at most `m`, `prefix_run`
is at most `m`, and every read of
`string[state + 1]`, `repeat_states[state]`, `string[repeat_states[state]]`,
`string[match_index]` and `string[prefix_run]` made by the two loops is inside
the search string or at its terminator, and inside the table. -/
theorem state_range_invariant (pattern text : List α) (_hne : pattern ≠ [])
    (hm : pattern.length < 4294967296) (ht : text.length < 4294967296) :
    (∀ e ∈ search_trace pattern (repeat_states pattern) text 0 NOT_FOUND,
      u32 (e.2 + 1) ≤ pattern.length) ∧
    (∀ e ∈ search_trace_ pattern text 0 0 0,
      e.2.1 ≤ pattern.length ∧ e.2.2 ≤ pattern.length) ∧
    (∀ a ∈ search_accesses pattern (repeat_states pattern) text NOT_FOUND,
      a.in_range pattern.length = true) ∧
    (∀ a ∈ search_accesses_ pattern text 0 0, a.in_range pattern.length = true) := by
  refine ⟨?_, ?_, ?_, ?_⟩
  · intro e he
    exact (search_trace_range pattern hm text 0 NOT_FOUND (by omega) (Or.inl rfl) e he).1
  · intro e he
    have h := search_trace__range pattern text 0 0 0 (by omega) (Nat.le_refl _) (Nat.le_refl _)
      (Nat.zero_le _) (Nat.zero_le _) e he
    exact ⟨h.1, h.2.1⟩
  · exact List.all_eq_true.mp (search_accesses_in_range pattern hm text NOT_FOUND (Or.inl rfl))
  · exact List.all_eq_true.mp
      (search_accesses__in_range pattern text 0 0 (Nat.zero_le _) (Nat.zero_le _))

/-- Claim C19 as amended (index in range): for a non-empty search string of
length `m` and a text, both of a length an `unsigned int` can count, after the
pass for `text[i]` a `state` of `string_search` other than the start value is at
most `i`, so `i - state` on `unsigned int` is the exact difference; `match_index`
of `string_search_` is at most `i + 1`, and `i - match_index + 1` on
`unsigned int` is the exact number `i + 1 - match_index`, its difference
`i - match_index` being exact when `match_index ≤ i` and `(unsigned)-1` when
`match_index = i + 1`; and a result `r` of either matcher other than `NOT_FOUND`
satisfies `r + m ≤ len(text)`. -/
theorem returned_index_in_range (pattern text : List α) (_hne : pattern ≠ [])
    (hm : pattern.length < 4294967296) (ht : text.length < 4294967296) :
    (∀ e ∈ search_trace pattern (repeat_states pattern) text 0 NOT_FOUND,
      e.2 ≠ NOT_FOUND → e.2 ≤ e.1 ∧ usub e.1 e.2 = e.1 - e.2) ∧
    (∀ e ∈ search_trace_ pattern text 0 0 0,
      e.2.1 ≤ e.1 + 1 ∧ u32 (usub e.1 e.2.1 + 1) = e.1 + 1 - e.2.1 ∧
        (e.2.1 ≤ e.1 → usub e.1 e.2.1 = e.1 - e.2.1) ∧
        (e.2.1 = e.1 + 1 → usub e.1 e.2.1 = NOT_FOUND)) ∧
    (string_search pattern text ≠ NOT_FOUND →
      string_search pattern text + pattern.length ≤ text.length) ∧
    (string_search_ pattern text ≠ NOT_FOUND →
      string_search_ pattern text + pattern.length ≤ text.length) := by
  refine ⟨?_, ?_, ?_, ?_⟩
  · intro e he
    exact (search_trace_range pattern hm text 0 NOT_FOUND (by omega) (Or.inl rfl) e he).2
  · intro e he
    obtain ⟨i, mi, pr⟩ := e
    have h := search_trace__range pattern text 0 0 0 (by omega) (Nat.le_refl _)
      (Nat.le_refl _) (Nat.zero_le _) (Nat.zero_le _) (i, mi, pr) he
    dsimp only at h ⊢
    obtain ⟨_, _, h3, h4⟩ := h
    refine ⟨h3, ?_, ?_, ?_⟩
    · unfold usub u32; omega
    · intro _; unfold usub; omega
    · intro _; unfold usub NOT_FOUND; omega
  · intro hr
    have h := search_loop_sound pattern hm text [] NOT_FOUND (by simpa using ht) (Or.inl rfl)
      (by rw [u32_not_found_succ]; simp) hr
    simpa [string_search] using h.1
  · intro hr
    have h := search_loop__bound pattern text 0 0 0 (by omega) (Nat.le_refl _) (Nat.le_refl _) hr
    simpa [string_search_] using h

/-- Claim C18 (full correctness of the table matcher when the first character is
not repeated): for a non-empty search string whose first character occurs at
no later position of it and a text, both of a length an `unsigned int` can
count, `string_search` returns the smallest index at which the search string
occurs in the text if there is one, and `NOT_FOUND` otherwise. -/
theorem string_search_first_not_repeated (pattern text : List α) (hne : pattern ≠ [])
    (hfirst : ∀ c ∈ pattern.tail, pattern[0]? ≠ some c)
    (hm : pattern.length < 4294967296) (ht : text.length < 4294967296) :
    ((∃ j, occurs_at pattern text j) →
      occurs_at pattern text (string_search pattern text) ∧
        ∀ j, j < string_search pattern text → ¬ occurs_at pattern text j) ∧
    ((¬ ∃ j, occurs_at pattern text j) → string_search pattern text = NOT_FOUND) := by
  have hsound : string_search pattern text ≠ NOT_FOUND →
      occurs_at pattern text (string_search pattern text) := by
    intro hr
    have h := search_loop_sound pattern hm text [] NOT_FOUND (by simpa using ht) (Or.inl rfl)
      (by rw [u32_not_found_succ]; simp) hr
    simpa [string_search, occurs_at] using h
  have hmin : ∀ j, j < string_search pattern text → ¬ occurs_at pattern text j := by
    have h := search_loop_first pattern hm hne (first_not_repeated_index pattern hfirst hne)
      text [] NOT_FOUND (by simpa using ht)
      (Or.inl rfl) (by rw [u32_not_found_succ]; simp)
      (by intro j hj; simp at hj)
    simpa [string_search] using h
  constructor
  · rintro ⟨j, hj⟩
    refine ⟨hsound ?_, hmin⟩
    intro hr
    have hlt : j < string_search pattern text := by
      have := hj.1
      have := List.length_pos.mpr hne
      rw [hr]
      unfold NOT_FOUND
      omega
    exact hmin j hlt hj
  · intro hnone
    by_contra hr
    exact hnone ⟨_, hsound hr⟩

end Claims

/-! ## Concrete runs -/

/-- Claim C8 (worked example): on the strings of the call in `main` both
matchers return 3. -/
theorem main_example :
    string_search main_string main_text = 3 ∧ string_search_ main_string main_text = 3 := by
  decide

/-- Witness for C1: the search string "ab" is found at index 1 of "cab". -/
theorem string_search_match_witness :
    ("ab".toList ≠ [] ∧ "ab".toList.length < 4294967296 ∧ "cab".toList.length < 4294967296 ∧
      string_search "ab".toList "cab".toList ≠ NOT_FOUND) ∧
    (string_search "ab".toList "cab".toList + "ab".toList.length ≤ "cab".toList.length ∧
      ("cab".toList.drop (string_search "ab".toList "cab".toList)).take "ab".toList.length
        = "ab".toList) :=
  ⟨by decide,
    string_search_match "ab".toList "cab".toList (by decide) (by decide) (by decide) (by decide)⟩

/-- Witness for C9: the search string "aab" against itself. -/
theorem self_match_witness :
    ("aab".toList ≠ [] ∧ "aab".toList.length < 4294967296) ∧
    (string_search "aab".toList "aab".toList = 0 ∧ string_search_ "aab".toList "aab".toList = 0) :=
  ⟨by decide, self_match "aab".toList (by decide) (by decide)⟩

/-- Witness for C10: the search string "aaa" against the shorter text "aa". -/
theorem no_match_on_shorter_text_witness :
    ("aaa".toList ≠ [] ∧ "aaa".toList.length < 4294967296 ∧
      "aa".toList.length < "aaa".toList.length) ∧
    (string_search "aaa".toList "aa".toList = NOT_FOUND ∧
      string_search_ "aaa".toList "aa".toList = NOT_FOUND) :=
  ⟨by decide, no_match_on_shorter_text "aaa".toList "aa".toList (by decide) (by decide) (by decide)⟩

/-! ## Inputs on which the matchers go wrong

`string_search` gives up a partial match when the character read is neither
`string[state + 1]` nor `string[repeat_states[state]]`: it sets `state` to the
start value without trying a shorter run and without comparing the character
with `string[0]`.

`string_search_` updates `prefix_run` only while `match_index > 1`, and leaves it
untouched when `match_index` is reset to `1`; the value kept then stands for a
run that ended earlier in the text, and is later copied into `match_index`. -/

/-- Claim C2 (first match, table matcher) fails on the code: for the search
string "abab" and the text "abaababab", `string_search` returns 5, although the
search string already occurs at index 3. -/
theorem string_search_skips_first_occurrence :
    string_search "abab".toList "abaababab".toList = 5 ∧
      3 < 5 ∧ ("abaababab".toList.drop 3).take 4 = "abab".toList := by
  decide

/-- Claim C3 (not-found, table matcher) fails on the code: for the search string
"abab" and the text "abaabab", `string_search` returns `NOT_FOUND`, although the
search string occurs at index 3. -/
theorem string_search_misses_occurrence :
    string_search "abab".toList "abaabab".toList = NOT_FOUND ∧
      ("abaabab".toList.drop 3).take 4 = "abab".toList := by
  decide

/-- Claim C4 (match at the returned index, constant-space matcher) fails on the
code: for the search string "aab" and the text "aaabab", `string_search_`
returns 3, where the text reads "bab". -/
theorem string_search__returns_non_occurrence :
    string_search_ "aab".toList "aaabab".toList = 3 ∧
      ("aaabab".toList.drop 3).take 3 = "bab".toList ∧
      ("aaabab".toList.drop 3).take 3 ≠ "aab".toList := by
  decide

/-- Claim C5 (not-found, constant-space matcher) fails on the code: for the
search string "aab" and the text "aaab", `string_search_` returns `NOT_FOUND`,
although the search string occurs at index 1. -/
theorem string_search__misses_occurrence :
    string_search_ "aab".toList "aaab".toList = NOT_FOUND ∧
      ("aaab".toList.drop 1).take 3 = "aab".toList := by
  decide

/-- Claim C6 (first match, constant-space matcher) fails on the code: for the
search string "aab" and the text "aaabbaab", `string_search_` returns 5,
although the search string already occurs at index 1. -/
theorem string_search__skips_first_occurrence :
    string_search_ "aab".toList "aaabbaab".toList = 5 ∧
      1 < 5 ∧ ("aaabbaab".toList.drop 1).take 3 = "aab".toList := by
  decide

/-- Claim C7 (equivalence of the matchers) fails on the code, in both
directions: for "aab" in "aaab" `string_search` returns 1 and `string_search_`
returns `NOT_FOUND`; for "abab" in "abaabab" `string_search` returns `NOT_FOUND`
and `string_search_` returns 3. -/
theorem matchers_disagree :
    (string_search "aab".toList "aaab".toList = 1 ∧
      string_search_ "aab".toList "aaab".toList = NOT_FOUND) ∧
    (string_search "abab".toList "abaabab".toList = NOT_FOUND ∧
      string_search_ "abab".toList "abaabab".toList = 3) := by
  decide

/-! ## The later claims on concrete strings -/

/-- Witness for C11, and its worked example: the search string "x" is found at
index 3 of "abcx" by both matchers. -/
theorem single_character_pattern_witness :
    ("abcx".toList.length < 4294967296 ∧ "abcx".toList[3]? = some 'x' ∧
      ∀ k, k < 3 → "abcx".toList[k]? ≠ some 'x') ∧
    (string_search "x".toList "abcx".toList = 3 ∧ string_search_ "x".toList "abcx".toList = 3) :=
  ⟨by decide,
    (single_character_pattern 'x' "abcx".toList (by decide)).2 3 (by decide) (by decide)⟩

/-- Claim C12 (repeated character): for both matchers the search string "aaa"
is found at index 0 of "aaaa" and is not found in "aa". -/
theorem repeated_character_example :
    (string_search "aaa".toList "aaaa".toList = 0 ∧
      string_search_ "aaa".toList "aaaa".toList = 0) ∧
    (string_search "aaa".toList "aa".toList = NOT_FOUND ∧
      string_search_ "aaa".toList "aa".toList = NOT_FOUND) := by
  decide

/-- Witness for C15: the table of "aabaaa". -/
theorem repeat_states_entries_witness :
    ("aabaaa".toList ≠ [] ∧ "aabaaa".toList.length < 4294967296) ∧
    ((repeat_states "aabaaa".toList).length = "aabaaa".toList.length ∧
    ∀ i : Nat, i < "aabaaa".toList.length →
      (repeat_states "aabaaa".toList).getD i 0 ≤ i ∧
        "aabaaa".toList.take ((repeat_states "aabaaa".toList).getD i 0) =
          ("aabaaa".toList.take (i + 1)).drop
            (i + 1 - (repeat_states "aabaaa".toList).getD i 0)) :=
  ⟨by decide, repeat_states_entries "aabaaa".toList (by decide) (by decide)⟩

/-- Claim C16 (the table is not the classical failure function): there are a
non-empty search string and a position at which `repeat_states` differs from
the length of the longest proper run that both starts and ends
`pattern[0..i]`.  For "aabaaa" the entry of position 5 is 1, while "aa" both
starts and ends the string. -/
theorem repeat_states_not_classical :
    ∃ (pattern : List Char) (i : Nat), pattern ≠ [] ∧ i < pattern.length ∧
      (repeat_states pattern).getD i 0 ≠ classical_failure pattern i ∧
      (repeat_states pattern).getD i 0 = 1 ∧ classical_failure pattern i = 2 :=
  ⟨"aabaaa".toList, 5, by decide⟩

/-- Witness for C17: the search string "ab" at the start of "abab". -/
theorem occurrence_at_start_witness :
    ("ab".toList ≠ [] ∧ "ab".toList.length < 4294967296) ∧
    (string_search "ab".toList ("ab".toList ++ "ab".toList) = 0 ∧
      string_search_ "ab".toList ("ab".toList ++ "ab".toList) = 0) :=
  ⟨by decide, occurrence_at_start "ab".toList "ab".toList (by decide) (by decide)⟩

/-- Witness for C13: the search string "ab" against the text "ccc". -/
theorem no_matching_characters_witness :
    ("ab".toList ≠ [] ∧ "ab".toList.length < 4294967296 ∧ "ccc".toList.length < 4294967296 ∧
      ∀ d ∈ "ccc".toList, d ∉ "ab".toList) ∧
    ((string_search "ab".toList "ccc".toList = NOT_FOUND ∧
      string_search_ "ab".toList "ccc".toList = NOT_FOUND) ∧
    (∀ a ∈ string_search_accesses "ab".toList "ccc".toList,
      a.in_range "ab".toList.length = true) ∧
    (∀ a ∈ string_search__accesses "ab".toList "ccc".toList,
      a.in_range "ab".toList.length = true)) :=
  ⟨by decide,
    no_matching_characters "ab".toList "ccc".toList (by decide) (by decide) (by decide)
      (by decide)⟩

/-- Witness for C14: the search string "aab" against the text "aaabab". -/
theorem state_range_invariant_witness :
    ("aab".toList ≠ [] ∧ "aab".toList.length < 4294967296 ∧
      "aaabab".toList.length < 4294967296) ∧
    ((∀ e ∈ search_trace "aab".toList (repeat_states "aab".toList) "aaabab".toList 0 NOT_FOUND,
      u32 (e.2 + 1) ≤ "aab".toList.length) ∧
    (∀ e ∈ search_trace_ "aab".toList "aaabab".toList 0 0 0,
      e.2.1 ≤ "aab".toList.length ∧ e.2.2 ≤ "aab".toList.length) ∧
    (∀ a ∈ search_accesses "aab".toList (repeat_states "aab".toList) "aaabab".toList NOT_FOUND,
      a.in_range "aab".toList.length = true) ∧
    (∀ a ∈ search_accesses_ "aab".toList "aaabab".toList 0 0,
      a.in_range "aab".toList.length = true)) :=
  ⟨by decide, state_range_invariant "aab".toList "aaabab".toList (by decide) (by decide)
    (by decide)⟩

/-- Witness for C19 as amended: the search string "aab" against the text
"aaabab". -/
theorem returned_index_in_range_witness :
    ("aab".toList ≠ [] ∧ "aab".toList.length < 4294967296 ∧
      "aaabab".toList.length < 4294967296) ∧
    ((∀ e ∈ search_trace "aab".toList (repeat_states "aab".toList) "aaabab".toList 0 NOT_FOUND,
      e.2 ≠ NOT_FOUND → e.2 ≤ e.1 ∧ usub e.1 e.2 = e.1 - e.2) ∧
    (∀ e ∈ search_trace_ "aab".toList "aaabab".toList 0 0 0,
      e.2.1 ≤ e.1 + 1 ∧ u32 (usub e.1 e.2.1 + 1) = e.1 + 1 - e.2.1 ∧
        (e.2.1 ≤ e.1 → usub e.1 e.2.1 = e.1 - e.2.1) ∧
        (e.2.1 = e.1 + 1 → usub e.1 e.2.1 = NOT_FOUND)) ∧
    (string_search "aab".toList "aaabab".toList ≠ NOT_FOUND →
      string_search "aab".toList "aaabab".toList + "aab".toList.length
        ≤ "aaabab".toList.length) ∧
    (string_search_ "aab".toList "aaabab".toList ≠ NOT_FOUND →
      string_search_ "aab".toList "aaabab".toList + "aab".toList.length
        ≤ "aaabab".toList.length)) :=
  ⟨by decide, returned_index_in_range "aab".toList "aaabab".toList (by decide) (by decide)
    (by decide)⟩

/-- Claim C19 as stated fails on the code: for the search string "a" and the
text "a", after the pass for `text[0]` the counters of `string_search_` are
`i = 0` and `match_index = 1`, so the subtraction `i - match_index` of the return
statement wraps to `(unsigned)-1`; the `+ 1` wraps it back to the result `0`. -/
theorem match_index_subtraction_wraps :
    search_trace_ "a".toList "a".toList 0 0 0 = [(0, 1, 0)] ∧
      ¬ (1 ≤ 0) ∧ usub 0 1 = 4294967295 ∧ u32 (usub 0 1 + 1) = 0 ∧
      string_search_ "a".toList "a".toList = 0 := by
  decide

/-- Witness for C18: the search string "abb" in the text "aababb", where it
first occurs at index 3. -/
theorem string_search_first_not_repeated_witness :
    ("abb".toList ≠ [] ∧ (∀ c ∈ "abb".toList.tail, "abb".toList[0]? ≠ some c) ∧
      "abb".toList.length < 4294967296 ∧
      "aababb".toList.length < 4294967296) ∧
    (((∃ j, occurs_at "abb".toList "aababb".toList j) →
      occurs_at "abb".toList "aababb".toList (string_search "abb".toList "aababb".toList) ∧
        ∀ j, j < string_search "abb".toList "aababb".toList →
          ¬ occurs_at "abb".toList "aababb".toList j) ∧
    ((¬ ∃ j, occurs_at "abb".toList "aababb".toList j) →
      string_search "abb".toList "aababb".toList = NOT_FOUND)) :=
  ⟨by decide,
    string_search_first_not_repeated "abb".toList "aababb".toList (by decide)
      (by decide)
      (by decide) (by decide)⟩

end StringSearch
